import Mathlib

/-!
Verification of the unpyc3 decompiler core (unpyc3.py).

A shallow embedding, in Lean 4, of the data model and the operations of the
Python-3.2 bytecode decompiler `unpyc3.py`:

* the instruction / address model (`code_walker`, `Code`, `Address`),
* the jump-classification pre-pass (`Code.find_else`),
* the symbolic evaluation stack (`Stack`, with identity-keyed counts),
* the expression node family needed by the claims (`PyExpr` with rendering),
* the short-circuit boolean merge (`SuiteDecompiler.push_popjump`),
* the unpack accumulator (`Unpack.store`, `UNPACK_SEQUENCE`, `ROT_TWO`),
* the raise handler (`RAISE_VARARGS`).

Python objects live on a heap of numeric object ids, so that the source's
identity-based bookkeeping (`id(obj)` keys, `is`-style membership) is modelled
faithfully.  Partial operations (list index errors, dict `KeyError`,
`AttributeError`, unsupported opcodes) are modelled with `Option` / `Except`.
-/

namespace Unpyc

/-! ## Opcode constants

Numeric values of the CPython 3.2 `opcode` module, which `unpyc3.py` loads into
its global namespace (`for name, val in opmap.items(): globals()[name] = val`).
Only the opcodes that the embedded functions consult are listed.
-/

def POP_TOP : Nat := 1
def ROT_TWO_OP : Nat := 2
def BREAK_LOOP : Nat := 80
def RETURN_VALUE : Nat := 83
def YIELD_VALUE : Nat := 86
def POP_BLOCK : Nat := 87
def END_FINALLY : Nat := 88
def POP_EXCEPT : Nat := 89
def STORE_NAME : Nat := 90
def DELETE_NAME : Nat := 91
def FOR_ITER : Nat := 93
def STORE_ATTR : Nat := 95
def DELETE_ATTR : Nat := 96
def STORE_GLOBAL : Nat := 97
def DELETE_GLOBAL : Nat := 98
def LOAD_CONST : Nat := 100
def LOAD_NAME : Nat := 101
def IMPORT_NAME : Nat := 108
def IMPORT_FROM : Nat := 109
def JUMP_FORWARD : Nat := 110
def JUMP_IF_FALSE_OR_POP : Nat := 111
def JUMP_IF_TRUE_OR_POP : Nat := 112
def JUMP_ABSOLUTE : Nat := 113
def POP_JUMP_IF_FALSE : Nat := 114
def POP_JUMP_IF_TRUE : Nat := 115
def CONTINUE_LOOP : Nat := 119
def SETUP_LOOP : Nat := 120
def SETUP_EXCEPT : Nat := 121
def SETUP_FINALLY : Nat := 122
def STORE_FAST : Nat := 125
def DELETE_FAST : Nat := 126
def RAISE_VARARGS_OP : Nat := 130
def CALL_FUNCTION : Nat := 131
def STORE_DEREF : Nat := 137
def DELETE_DEREF : Nat := 138
def SETUP_WITH : Nat := 143

/-- `HAVE_ARGUMENT` from the `opcode` module: opcodes `>= 90` carry a
two-byte little-endian argument. -/
def HAVE_ARGUMENT : Nat := 90

/-- The opcodes that generate a statement (`stmt_opcodes` in the source),
used by the first pass `Code.find_else`. -/
def stmt_opcodes : List Nat :=
  [SETUP_LOOP, BREAK_LOOP, CONTINUE_LOOP,
   SETUP_FINALLY, END_FINALLY,
   SETUP_EXCEPT, POP_EXCEPT,
   SETUP_WITH,
   POP_BLOCK,
   STORE_FAST, DELETE_FAST,
   STORE_DEREF, DELETE_DEREF,
   STORE_GLOBAL, DELETE_GLOBAL,
   STORE_NAME, DELETE_NAME,
   STORE_ATTR, DELETE_ATTR,
   IMPORT_NAME, IMPORT_FROM,
   RETURN_VALUE, YIELD_VALUE,
   RAISE_VARARGS_OP,
   POP_TOP]

/-- `pop_jump_if_opcodes = (POP_JUMP_IF_TRUE, POP_JUMP_IF_FALSE)`. -/
def pop_jump_if_opcodes : List Nat := [POP_JUMP_IF_TRUE, POP_JUMP_IF_FALSE]

/-- `else_jump_opcodes`: opcodes before a jump target that mark a
`POP_JUMP_IF_x` to the address just after them as an else-jump. -/
def else_jump_opcodes : List Nat :=
  [JUMP_FORWARD, RETURN_VALUE, JUMP_ABSOLUTE, SETUP_LOOP, RAISE_VARARGS_OP]

/-- `dis.hasjrel` for CPython 3.2: opcodes whose argument is a relative
byte offset. -/
def hasjrel : List Nat :=
  [FOR_ITER, JUMP_FORWARD, SETUP_LOOP, SETUP_EXCEPT, SETUP_FINALLY, SETUP_WITH]

/-- `dis.hasjabs` for CPython 3.2: opcodes whose argument is an absolute
byte position. -/
def hasjabs : List Nat :=
  [JUMP_IF_FALSE_OR_POP, JUMP_IF_TRUE_OR_POP, JUMP_ABSOLUTE,
   POP_JUMP_IF_FALSE, POP_JUMP_IF_TRUE, CONTINUE_LOOP]

/-! ## Instruction and Code model -/

/-- One decoded instruction: `(position, (opcode, optional argument))` as
produced by `code_walker`. -/
structure Instr where
  pos : Nat
  opcode : Nat
  arg : Option Nat
  deriving DecidableEq, Repr

/-- `code_walker(code)`: decode the raw byte stream, one instruction per
step; an opcode `>= HAVE_ARGUMENT` consumes two little-endian argument
bytes and occupies 3 position units, others occupy 1.  The first parameter
is the running byte position (`i` in the source).  A truncated argument
(fewer than two bytes remaining) would make the source index out of the
array's range; the embedding stops there. -/
def codeWalker : Nat → List Nat → List Instr
  | _, [] => []
  | i, op :: rest =>
    if op ≥ HAVE_ARGUMENT then
      match rest with
      | b1 :: b2 :: rest' => ⟨i, op, some (b1 + b2 * 256)⟩ :: codeWalker (i + 3) rest'
      | _ => []
    else
      ⟨i, op, none⟩ :: codeWalker (i + 1) rest

/-- The instruction sequence of one compiled unit (`Code.instr_seq`).
The source's `instr_map` (position → index dictionary) is recomputed by
`Code.addrIdx` below; the remaining fields of the Python `Code` object
(constant pool, name tables, parent link, …) are not consulted by any of
the claims under verification. -/
structure Code where
  instr_seq : List Instr
  deriving DecidableEq, Repr

/-- Number of instructions of the unit. -/
def Code.len (c : Code) : Nat := c.instr_seq.length

/-- Fetch the instruction record at an index (the source reads
`code.instr_seq[instr_index]` on an index it trusts to be valid; out of
range is `none` here). -/
def Code.getInstr (c : Code) (i : Nat) : Option Instr := c.instr_seq.get? i

/-- Helper for `Code.addrIdx`: scan for the instruction whose byte
position equals `p`, returning its index (offset by the accumulator). -/
def addrIdxAux : List Instr → Int → Nat → Option Nat
  | [], _, _ => none
  | ins :: rest, p, k => if (ins.pos : Int) = p then some k else addrIdxAux rest p (k + 1)

/-- `Code.address(addr)` = `self[self.instr_map[addr]]`: the index of the
instruction starting at byte position `p`.  A position that starts no
instruction raises `KeyError` in the source (`none` here).  `instr_map` is
a dict keyed by the positions of `instr_seq`, which `code_walker` emits
strictly increasing, so first match = the dict entry. -/
def Code.addrIdx (c : Code) (p : Int) : Option Nat := addrIdxAux c.instr_seq p 0

/-- `Address.__getitem__`: `self.code[self.index + index]`, where
`Code.__getitem__` returns an `Address` when `0 <= i < len(instr_seq)` and
(implicitly) `None` otherwise.  An address is identified by its index. -/
def Address.getItem (c : Code) (i : Nat) (k : Int) : Option Nat :=
  if 0 ≤ (i : Int) + k ∧ (i : Int) + k < (c.len : Int) then some ((i : Int) + k).toNat
  else none

/-- `Address.__add__`: `self.code.address(self.addr + delta)` — the address
at byte position `self.addr + delta` (note: position-relative, not
index-relative). -/
def Address.add (c : Code) (i : Nat) (delta : Int) : Option Nat :=
  match c.getInstr i with
  | none => none
  | some ins => c.addrIdx ((ins.pos : Int) + delta)

/-- `Address.jump()`: for a relative-offset opcode, `self[1] + self.arg`
(the address at the successor's byte position plus the offset); for an
absolute-offset opcode, `self.code.address(self.arg)`; otherwise the
method falls through and returns `None`.  A missing successor or a missing
argument makes the source raise (`None + arg` / `address(None)`): `none`. -/
def Address.jump (c : Code) (i : Nat) : Option Nat :=
  match c.getInstr i with
  | none => none
  | some ins =>
    if hasjrel.contains ins.opcode then
      match Address.getItem c i 1, ins.arg with
      | some j, some a => Address.add c j (a : Int)
      | _, _ => none
    else if hasjabs.contains ins.opcode then
      match ins.arg with
      | some a => c.addrIdx (a : Int)
      | none => none
    else none

/-! ## The jump-classification pre-pass (`Code.find_else`) -/

/-- The loop state of `find_else`: the dict `jumps` (address index →
address index, insertion-ordered with overwrite-in-place, as a Python
dict) and the most recent unresolved conditional jump `last_jump`. -/
structure FindElseState where
  jumps : List (Nat × Nat)
  last_jump : Option Nat
  deriving DecidableEq, Repr

/-- Dict insertion `d[k] = v`: overwrite the existing entry, else append. -/
def dictInsert (d : List (Nat × Nat)) (k v : Nat) : List (Nat × Nat) :=
  if d.any (fun p => p.1 = k) then d.map (fun p => if p.1 = k then (k, v) else p)
  else d ++ [(k, v)]

/-- Dict lookup `d[k]` (a missing key raises `KeyError`: `none`). -/
def dictFind (d : List (Nat × Nat)) (k : Nat) : Option (Nat × Nat) :=
  d.find? (fun p => p.1 = k)

/-- One iteration of the `find_else` scan, at address index `i` holding
instruction `ins`.  `none` models the crashes the source can hit
(`KeyError` from `self.address(arg)`, `AttributeError` from
`jump_addr[-1].opcode` when the target is instruction 0). -/
def findElseStep (c : Code) (st : FindElseState) (i : Nat) (ins : Instr) :
    Option FindElseState :=
  if pop_jump_if_opcodes.contains ins.opcode then
    match ins.arg with
    | none => none
    | some a =>
      match c.addrIdx (a : Int) with
      | none => none
      | some jump_addr =>
        match Address.getItem c jump_addr (-1) with
        | none => none
        | some prev =>
          match c.getInstr prev, c.getInstr jump_addr with
          | some prevIns, some jumpIns =>
            if else_jump_opcodes.contains prevIns.opcode ∨ jumpIns.opcode = FOR_ITER then
              some { jumps := dictInsert st.jumps jump_addr i, last_jump := some i }
            else some st
          | _, _ => none
  else if ins.opcode = JUMP_ABSOLUTE then
    match ins.arg with
    | none => none
    | some a =>
      match c.addrIdx (a : Int) with
      | none => none
      | some jump_addr =>
        match dictFind st.jumps jump_addr with
        | some kv => some { st with jumps := dictInsert st.jumps i kv.2 }
        | none => some st
  else if stmt_opcodes.contains ins.opcode then
    match st.last_jump with
    | some lj => some { st with jumps := dictInsert st.jumps i lj }
    | none => some st
  else some st

/-- The `for addr in self` loop of `find_else`, starting at index `i`. -/
def findElseLoop (c : Code) : List Instr → Nat → FindElseState → Option FindElseState
  | [], _, st => some st
  | ins :: rest, i, st =>
    match findElseStep c st i ins with
    | none => none
    | some st' => findElseLoop c rest (i + 1) st'

/-- `Code.find_else`, returning the final loop state. -/
def findElse (c : Code) : Option FindElseState :=
  findElseLoop c c.instr_seq 0 { jumps := [], last_jump := none }

/-- `self.else_jumps = set(jumps.values())`: the members of the unit's
else-jump set, as the (possibly repeating) list of the dict's values;
membership in this list is membership in the set. -/
def findElseValues (c : Code) : Option (List Nat) :=
  (findElse c).map (fun st => st.jumps.map Prod.snd)

/-! ## Expression nodes

The expression variants the claims exercise.  A comparison chain
(`PyCompare`) stores `complist`, an odd-length alternation
`[expr, op, expr, op, expr, …]`; here it is split into the head expression
and the (operator, expression) continuation so the alternation is enforced
by the type.  Constants carry their `repr` string.  The sibling types
`ExprList` / `CmpRest` are the child lists (kept as bespoke mutual types so
that all recursions stay structural). -/

mutual

inductive PyExpr where
  | pyname (s : String)
  | pyconst (v : String)
  | tuple (vals : ExprList)
  | compare (first : PyExpr) (rest : CmpRest)
  | booleanAnd (l r : PyExpr)
  | booleanOr (l r : PyExpr)
  | starred (e : PyExpr)
  deriving DecidableEq, Repr

inductive ExprList where
  | nil
  | cons (e : PyExpr) (rest : ExprList)
  deriving DecidableEq, Repr

inductive CmpRest where
  | nil
  | cons (op : String) (e : PyExpr) (rest : CmpRest)
  deriving DecidableEq, Repr

end

/-- Convert a Lean list of expressions into an `ExprList`. -/
def ExprList.ofList : List PyExpr → ExprList
  | [] => .nil
  | e :: rest => .cons e (ExprList.ofList rest)

/-- `CmpRest` concatenation (for `PyCompare.chain`'s `complist + other.complist[1:]`). -/
def CmpRest.append : CmpRest → CmpRest → CmpRest
  | .nil, r => r
  | .cons op e rest, r => .cons op e (rest.append r)

/-- The class precedences: `PyName`/`PyConst` 100, `PyTuple` 0,
`PyCompare` 6, `PyBooleanAnd` 4, `PyBooleanOr` 3, `PyStarred` 15. -/
def PyExpr.precedence : PyExpr → Int
  | .pyname _ => 100
  | .pyconst _ => 100
  | .tuple _ => 0
  | .compare _ _ => 6
  | .booleanAnd _ _ => 4
  | .booleanOr _ _ => 3
  | .starred _ => 15

mutual

/-- `str(expr)` for the embedded variants, following each class's
`__str__` and `PyExpr.wrap` (a child is parenthesised iff its stated
precedence condition holds). -/
def render : PyExpr → String
  | .pyname s => s
  | .pyconst v => v
  | .tuple vals =>
    match vals with
    | .nil => "()"
    | .cons e .nil => (if e.precedence ≤ 0 then "(" ++ render e ++ ")" else render e) ++ ","
    | .cons e rest =>
      (if e.precedence ≤ 0 then "(" ++ render e ++ ")" else render e) ++ renderTupleRest rest
  | .compare first rest =>
    (if first.precedence ≤ 0 then "(" ++ render first ++ ")" else render first)
      ++ renderCmpRest rest
  | .booleanAnd l r =>
    (if l.precedence < 4 then "(" ++ render l ++ ")" else render l)
      ++ " and "
      ++ (if r.precedence ≤ 4 then "(" ++ render r ++ ")" else render r)
  | .booleanOr l r =>
    (if l.precedence < 3 then "(" ++ render l ++ ")" else render l)
      ++ " or "
      ++ (if r.precedence ≤ 3 then "(" ++ render r ++ ")" else render r)
  | .starred e =>
    "*" ++ (if e.precedence < 15 then "(" ++ render e ++ ")" else render e)

/-- The `", ".join` tail of a multi-element tuple display. -/
def renderTupleRest : ExprList → String
  | .nil => ""
  | .cons e rest =>
    ", " ++ (if e.precedence ≤ 0 then "(" ++ render e ++ ")" else render e)
      ++ renderTupleRest rest

/-- The `" ".join` tail of a comparison display: operators verbatim, the
expressions at even positions wrapped when their precedence is `<= 0`. -/
def renderCmpRest : CmpRest → String
  | .nil => ""
  | .cons op e rest =>
    " " ++ op ++ " " ++ (if e.precedence ≤ 0 then "(" ++ render e ++ ")" else render e)
      ++ renderCmpRest rest

end

/-- Python `==` between expression nodes.  `PyName` and `PyConst` overload
`__eq__` (same class and same name / same constant value); every other
variant falls back to default object equality, which is reference
identity — between two separately built tree nodes it is `False`, which is
how every comparison the decompiler performs on them resolves. -/
def exprEq : PyExpr → PyExpr → Bool
  | .pyname a, .pyname b => a = b
  | .pyconst a, .pyconst b => a = b
  | _, _ => false

/-- The last element of `complist` (`complist[-1]`); for the alternation
`(first, rest)` this is the final expression, or `first` when `rest` is
empty (a well-formed `PyCompare` always has a nonempty `rest`). -/
def cmpLast (first : PyExpr) : CmpRest → PyExpr
  | .nil => first
  | .cons _ e rest => cmpLast e rest

/-- `PyCompare.extends(other)`: `other` is a `PyCompare` and
`self.complist[0] == other.complist[-1]`. -/
def extendsCompare (self other : PyExpr) : Bool :=
  match self, other with
  | .compare f _, .compare g r => exprEq f (cmpLast g r)
  | _, _ => false

/-- `PyCompare.chain(other)`: `PyCompare(self.complist + other.complist[1:])`.
Only called on two comparison nodes; on any other input the source would
fail attribute lookup, and the fallback branch is never exercised. -/
def chainCompare : PyExpr → PyExpr → PyExpr
  | .compare f1 r1, .compare _ r2 => .compare f1 (r1.append r2)
  | l, _ => l

/-- The and-combination step of `JUMP_IF_FALSE_OR_POP`:
`left.chain(right)` when `right` is a comparison that extends `left`,
otherwise `PyBooleanAnd(left, right)`. -/
def combineAnd (left right : PyExpr) : PyExpr :=
  match right with
  | .compare _ _ => if extendsCompare right left then chainCompare left right
                    else .booleanAnd left right
  | _ => .booleanAnd left right

/-! ## The symbolic evaluation stack (`Stack`)

Stack slots hold references to Python objects; the embedding identifies an
object by a numeric id (the role `id(obj)` plays in the source) and keeps
the payloads in a separate heap (further below).  `_counts` is the
identity-keyed occurrence dict. -/

/-- `get_count`: `self._counts.get(id(obj), 0)`. -/
def getCount (cs : List (Nat × Int)) (o : Nat) : Int :=
  match cs.find? (fun p => p.1 = o) with
  | some p => p.2
  | none => 0

/-- `set_count`: store `val` under the object's id when `val` is truthy
(nonzero), else `del` the entry.  (`del` on an absent key would raise
`KeyError`; as proved below, a stack reachable from empty keeps only
nonzero counts, so the deleted key is always present and the plain erase
is exact.) -/
def setCount (cs : List (Nat × Int)) (o : Nat) (v : Int) : List (Nat × Int) :=
  if v = 0 then cs.eraseP (fun p => p.1 = o)
  else if cs.any (fun p => p.1 = o) then cs.map (fun p => if p.1 = o then (o, v) else p)
  else cs ++ [(o, v)]

/-- The evaluation stack: `_stack` (the Lean list's head is the Python
list's last element, i.e. the top) and the occurrence dict `_counts`. -/
structure Stack where
  vals : List Nat
  counts : List (Nat × Int)
  deriving DecidableEq, Repr

def Stack.empty : Stack := ⟨[], []⟩

/-- `get_count` on a stack. -/
def Stack.count (s : Stack) (o : Nat) : Int := getCount s.counts o

/-- `__contains__`: `self.get_count(val) > 0`. -/
def Stack.containsObj (s : Stack) (o : Nat) : Bool := 0 < s.count o

/-- `pop1`: pop the top value and decrement its count (`IndexError` on an
empty stack: `none`). -/
def Stack.pop1 (s : Stack) : Option (Nat × Stack) :=
  match s.vals with
  | [] => none
  | o :: rest => some (o, ⟨rest, setCount s.counts o (getCount s.counts o - 1)⟩)

/-- The body of `push`: one append plus count increment. -/
def Stack.push1 (s : Stack) (o : Nat) : Stack :=
  ⟨o :: s.vals, setCount s.counts o (getCount s.counts o + 1)⟩

/-- `push(*args)`: push each argument in turn (the last lands on top). -/
def Stack.push (s : Stack) (os : List Nat) : Stack := os.foldl Stack.push1 s

/-- `pop(count)`: pop `count` values one at a time, then reverse, so the
result lists the popped values bottom-to-top (original order). -/
def Stack.popN (s : Stack) (n : Nat) : Option (List Nat × Stack) :=
  match n with
  | 0 => some ([], s)
  | n + 1 =>
    match s.pop1 with
    | none => none
    | some (o, s') =>
      match s'.popN n with
      | none => none
      | some (os, s'') => some (os ++ [o], s'')

/-- `peek()`: `self._stack[-1]` (`IndexError` on empty). -/
def Stack.peek1 (s : Stack) : Option Nat := s.vals.head?

/-- `peek(count)`: `self._stack[-count:]`, the top `count` values in
bottom-to-top order (a slice never raises; Python's `[-0:]` is the whole
list). -/
def Stack.peekN (s : Stack) (n : Nat) : List Nat :=
  if n = 0 then s.vals.reverse else (s.vals.take n).reverse

/-- One abstract operation on the evaluation stack, for stating the
counting invariant over arbitrary operation sequences. -/
inductive StackOp where
  | push (o : Nat)
  | pop
  | popn (n : Nat)
  | peek
  | peekn (n : Nat)
  deriving DecidableEq, Repr

/-- Apply one operation (`none` = the source raises). -/
def StackOp.step (s : Stack) : StackOp → Option Stack
  | .push o => some (s.push1 o)
  | .pop => (s.pop1).map Prod.snd
  | .popn n => (s.popN n).map Prod.snd
  | .peek => (s.peek1).map (fun _ => s)
  | .peekn _ => some s

/-- Run a sequence of operations from a starting stack. -/
def runOps (ops : List StackOp) (s : Stack) : Option Stack :=
  match ops with
  | [] => some s
  | op :: rest =>
    match op.step s with
    | none => none
    | some s' => runOps rest s'

/-! ## The short-circuit boolean merge (`SuiteDecompiler.push_popjump`) -/

/-- One pending entry of `popjump_stack`: `(jtruthiness, jaddr, jcond)`.
The target is `Option Nat` because `Address.jump()` (and hence the `jaddr`
argument) can be `None`. -/
structure PJEntry where
  truthiness : Bool
  addr : Option Nat
  cond : PyExpr
  deriving DecidableEq, Repr

/-- The loop's test `jaddr < addr or jaddr == addr` under the `Address`
comparison methods (`self < None` is `True`; `==` with `None` is `False`;
`None < addr` raises `TypeError`: `none`).  All addresses are indices of
the one unit being decompiled. -/
def pjBreakTest (jaddr addr : Option Nat) : Option Bool :=
  match jaddr, addr with
  | some j, some a => some (j < a ∨ j = a)
  | some _, none => some true
  | none, _ => none

/-- The combination applied to a popped entry: `obj_maker` is
`PyBooleanOr` when the popped truthiness is truthy, else `PyBooleanAnd`;
when the incoming condition is already an instance of that class, the
reassociated `obj_maker(obj_maker(cond, jcond.left), jcond.right)` is
built instead of the naive nesting `obj_maker(cond, jcond)`. -/
def combinePJ (truthiness : Bool) (cond jcond : PyExpr) : PyExpr :=
  if truthiness then
    match jcond with
    | .booleanOr l r => .booleanOr (.booleanOr cond l) r
    | _ => .booleanOr cond jcond
  else
    match jcond with
    | .booleanAnd l r => .booleanAnd (.booleanAnd cond l) r
    | _ => .booleanAnd cond jcond

/-- The `while stack:` loop of `push_popjump`, with the head of the list
as the top of `popjump_stack` (the source appends to the Python list's
end).  Returns the surviving entries and the accumulated condition. -/
def pjLoop : List PJEntry → Option Nat → PyExpr → Option (List PJEntry × PyExpr)
  | [], _, jcond => some ([], jcond)
  | e :: rest, jaddr, jcond =>
    match pjBreakTest jaddr e.addr with
    | none => none
    | some true => some (e :: rest, jcond)
    | some false => pjLoop rest jaddr (combinePJ e.truthiness e.cond jcond)

/-- `push_popjump(jtruthiness, jaddr, jcond)` over the decompiled unit `c`
whose `find_else` result is `elseJumps`.  First the target adjustment
(`if jaddr and jaddr[-1].is_else_jump(): jaddr = jaddr[-1].jump()`), then
the combine loop, then the push of the new entry.  `none` models the
source's raises (predecessor of address 0; comparison with a `None`
target). -/
def pushPopjump (c : Code) (elseJumps : List Nat) (jt : Bool) (jaddr : Option Nat)
    (jcond : PyExpr) (stack : List PJEntry) : Option (List PJEntry) :=
  match jaddr with
  | none =>
    match pjLoop stack none jcond with
    | none => none
    | some (rest, cond) => some (⟨jt, none, cond⟩ :: rest)
  | some j =>
    match Address.getItem c j (-1) with
    | none => none
    | some prev =>
      let jaddr' := if elseJumps.contains prev then Address.jump c prev else some j
      match pjLoop stack jaddr' jcond with
      | none => none
      | some (rest, cond) => some (⟨jt, jaddr', cond⟩ :: rest)

/-! ## Decompiler state: statements, the object heap, `store`

Statement nodes the claims need: `SimpleStatement` text lines and
`AssignStatement` chains. -/

inductive Stmt where
  | simple (line : String)
  | assign (chain : List PyExpr)
  deriving DecidableEq, Repr

/-- `Unpack`: the in-progress multi-target assignment accumulator.
`val` is the id of the source object (`Unpack.val` keeps a reference to
the popped object itself). -/
structure UnpackObj where
  val : Nat
  length : Nat
  star_index : Option Nat
  dests : List PyExpr
  deriving DecidableEq, Repr

/-- A heap object: an ordinary expression node or an `Unpack` accumulator
(the two kinds of object the claims put on the evaluation stack). -/
inductive Obj where
  | expr (e : PyExpr)
  | unpack (u : UnpackObj)
  deriving DecidableEq, Repr

/-- Heap lookup by object id. -/
def heapGet (h : List (Nat × Obj)) (i : Nat) : Option Obj :=
  (h.find? (fun p => p.1 = i)).map Prod.snd

/-- Heap update: replace the entry for `i`, or add it. -/
def heapSet (h : List (Nat × Obj)) (i : Nat) (o : Obj) : List (Nat × Obj) :=
  if h.any (fun p => p.1 = i) then h.map (fun p => if p.1 = i then (i, o) else p)
  else h ++ [(i, o)]

/-- The slice of `SuiteDecompiler` state the store/unpack claims touch:
the evaluation stack, the object heap with its next fresh id (Python
allocates the objects; ids model their identities), the suite built so
far, and `assignment_chain`. -/
structure DecState where
  stack : Stack
  heap : List (Nat × Obj)
  nextId : Nat
  suite : List Stmt
  chain : List PyExpr
  deriving DecidableEq, Repr

/-- Allocate a fresh object, returning its id. -/
def DecState.alloc (st : DecState) (o : Obj) : Nat × DecState :=
  (st.nextId,
   { st with heap := heapSet st.heap st.nextId o, nextId := st.nextId + 1 })

/-- `SuiteDecompiler.store(dest)`: `val = self.stack.pop();
val.store(self, dest)`, dispatching on the popped object.
`PyExpr.store` appends `dest` to `assignment_chain` and, when the popped
value is no longer referenced on the stack, closes the chain into one
`AssignStatement`.  `Unpack.store` stars the destination at `star_index`,
accumulates it and, on reaching `length`, pushes the source back and
recurses through `dec.store` with the tuple of destinations (the one
recursive call; `fuel` bounds that recursion depth).  `none` models an
empty-stack pop, a dangling id, and fuel exhaustion (unreachable for the
nesting depths exercised). -/
def decStore : Nat → PyExpr → DecState → Option DecState
  | 0, _, _ => none
  | fuel + 1, dest, st =>
    match st.stack.pop1 with
    | none => none
    | some (vid, stk) =>
      match heapGet st.heap vid with
      | none => none
      | some (.expr e) =>
        let chain := st.chain ++ [dest]
        if stk.containsObj vid then
          some { st with stack := stk, chain := chain }
        else
          some { st with
                 stack := stk
                 chain := []
                 suite := st.suite ++ [.assign (chain ++ [e])] }
      | some (.unpack u) =>
        let dest' := if (match u.star_index with
                         | some k => decide (u.dests.length = k)
                         | none => false) then PyExpr.starred dest else dest
        let dests' := u.dests ++ [dest']
        let st' := { st with
                     stack := stk
                     heap := heapSet st.heap vid (.unpack { u with dests := dests' }) }
        if dests'.length = u.length then
          decStore fuel (.tuple (ExprList.ofList dests'))
            { st' with stack := st'.stack.push1 u.val }
        else some st'

/-- `UNPACK_SEQUENCE(count)`: pop the source, build one
`Unpack(source, count)` accumulator and push it `count` times. -/
def UNPACK_SEQUENCE (count : Nat) (st : DecState) : Option DecState :=
  match st.stack.pop1 with
  | none => none
  | some (vid, stk) =>
    let (uid, st') := DecState.alloc { st with stack := stk }
        (.unpack { val := vid, length := count, star_index := none, dests := [] })
    some { st' with stack := st'.stack.push (List.replicate count uid) }

/-- Run `store(dest)` for each destination in turn (one per `STORE_*`
instruction), with the given recursion fuel for each call. -/
def runStores (fuel : Nat) : List PyExpr → DecState → Option DecState
  | [], st => some st
  | d :: ds, st =>
    match decStore fuel d st with
    | none => none
    | some st' => runStores fuel ds st'

/-- The `ROT_TWO` handler that is in effect (the class body defines
`ROT_TWO` twice; this later definition, the `x, y = z, t` special case,
replaces the earlier plain swap): pop two values, build the
`PyTuple` of them (in the bottom-to-top order `pop(2)` returns), wrap it
in an `Unpack` of arity 2 and push that accumulator twice.  The embedding
requires the two popped objects to be expression nodes (in the byte code
patterns reaching `ROT_TWO` they always are; the source would happily
tuple any object). -/
def ROT_TWO (st : DecState) : Option DecState :=
  match st.stack.popN 2 with
  | some ([o1, o2], stk) =>
    match heapGet st.heap o1, heapGet st.heap o2 with
    | some (.expr e1), some (.expr e2) =>
      let (vid, st') := DecState.alloc { st with stack := stk }
          (.expr (.tuple (ExprList.ofList [e1, e2])))
      let (uid, st'') := st'.alloc
          (.unpack { val := vid, length := 2, star_index := none, dests := [] })
      some { st'' with stack := (st''.stack.push1 uid).push1 uid }
    | _, _ => none
  | _ => none

/-- The earlier, shadowed definition of `ROT_TWO` (the plain swap:
`tos1, tos = self.stack.pop(2); self.stack.push(tos, tos1)`), embedded for
comparison with the effective handler. -/
def ROT_TWO_shadowed (st : DecState) : Option DecState :=
  match st.stack.popN 2 with
  | some ([tos1, tos], stk) => some { st with stack := stk.push [tos, tos1] }
  | _ => none

/-! ## `RAISE_VARARGS` -/

/-- How a `RAISE_VARARGS` dispatch can abort the unit's reconstruction. -/
inductive RErr where
  | underflow
  | typeErr
  | attributeErr
  | nameUnknown
  | nonExpr
  deriving DecidableEq, Repr

/-- The `RAISE_VARARGS` handler.  `argc == 0` writes a bare `raise`;
`argc == 1` pops the exception and writes `raise <exc>`; at `argc == 2`
the source runs `exc, from_exc = self.stack.pop()` — it pops a single
object and tuple-unpacks it (failing unless that object is a 2-element
iterable, `typeErr`) — and then evaluates
`self.write("raise {} from {}". exc, from_exc)`, an attribute access on a
string literal (a typo for a comma) that raises `AttributeError`
unconditionally before any statement is emitted (`attributeErr`); any
other argc evaluates `raise Unknown`, a `NameError` on the undefined name
`Unknown` (`nameUnknown`).  `nonExpr` marks the model restriction that a
popped operand must be an expression node for `str()` to be meaningful
here. -/
def RAISE_VARARGS (argc : Nat) (st : DecState) : Except RErr DecState :=
  if argc = 0 then
    .ok { st with suite := st.suite ++ [.simple "raise"] }
  else if argc = 1 then
    match st.stack.pop1 with
    | none => .error .underflow
    | some (o, stk) =>
      match heapGet st.heap o with
      | some (.expr e) =>
        .ok { st with stack := stk, suite := st.suite ++ [.simple ("raise " ++ render e)] }
      | _ => .error .nonExpr
  else if argc = 2 then
    match st.stack.pop1 with
    | none => .error .underflow
    | some (o, _stk) =>
      match heapGet st.heap o with
      | some (.expr (.tuple (.cons _ (.cons _ .nil)))) => .error .attributeErr
      | _ => .error .typeErr
  else .error .nameUnknown

/-! ## Concrete example units and states -/

/-- The byte stream of a unit for `if x: f() … else: g()` at module level:

```
 0 LOAD_NAME 0            (x)
 3 POP_JUMP_IF_FALSE 16
 6 LOAD_NAME 1            (f)
 9 CALL_FUNCTION 0
12 POP_TOP
13 JUMP_FORWARD 7         (to 23)
16 LOAD_NAME 2            (g)
19 CALL_FUNCTION 0
22 POP_TOP
23 LOAD_CONST 0           (None)
26 RETURN_VALUE
```
-/
def exampleIfElse : Code :=
  ⟨codeWalker 0
    [101, 0, 0, 114, 16, 0, 101, 1, 0, 131, 0, 0, 1,
     110, 7, 0, 101, 2, 0, 131, 0, 0, 1, 100, 0, 0, 83]⟩

/-- A two-instruction unit (`return None`): `LOAD_CONST 0` at position 0,
`RETURN_VALUE` at position 3. -/
def exampleReturn : Code := ⟨codeWalker 0 [100, 0, 0, 83]⟩

/-- A decompiler state whose stack holds one object, id 0: the pair
expression `(e, cause)` (the operands a 2-argument raise would need). -/
def raiseTwoState : DecState :=
  ⟨⟨[0], [(0, 1)]⟩,
   [(0, .expr (.tuple (.cons (.pyname "e") (.cons (.pyname "cause") .nil))))],
   1, [], []⟩

/-- A decompiler state whose stack holds one object, id 0: the name `exc`. -/
def raiseOneState : DecState :=
  ⟨⟨[0], [(0, 1)]⟩, [(0, .expr (.pyname "exc"))], 1, [], []⟩

/-- A decompiler state whose stack holds the two names `z` (id 0, below)
and `t` (id 1, on top), as before the `ROT_TWO` of `x, y = z, t`. -/
def rotTwoState : DecState :=
  ⟨⟨[1, 0], [(0, 1), (1, 1)]⟩,
   [(0, .expr (.pyname "z")), (1, .expr (.pyname "t"))], 2, [], []⟩

/-- The machine state at the `UNPACK_SEQUENCE 2` of `a, b = u`: the
source object `u` (id 0) on the stack once, nothing pending. -/
def singleUnpackState : DecState :=
  ⟨⟨[0], [(0, 1)]⟩, [(0, .expr (.pyname "u"))], 1, [], []⟩

/-- The machine state at the `UNPACK_SEQUENCE 2` of `a, b = t = u`: the
source object `u` (id 0) was loaded and duplicated (`DUP_TOP`), so it is
referenced twice on the stack; the second reference will be consumed by
the later store to `t`. -/
def chainedUnpackState : DecState :=
  ⟨⟨[0, 0], [(0, 2)]⟩, [(0, .expr (.pyname "u"))], 1, [], []⟩

/-- Index `v` of unit `c` holds a conditional `POP_JUMP_IF_x` instruction. -/
def isPopJumpAt (c : Code) (v : Nat) : Prop :=
  ∃ ins, c.getInstr v = some ins ∧ pop_jump_if_opcodes.contains ins.opcode = true

/-- The `find_else` loop-state invariant: every value of the `jumps` dict,
and the pending `last_jump`, is the address of a conditional jump. -/
def FEInv (c : Code) (st : FindElseState) : Prop :=
  (∀ v ∈ st.jumps.map Prod.snd, isPopJumpAt c v) ∧
  (∀ lj, st.last_jump = some lj → isPopJumpAt c lj)

/-- The stack-counting invariant: distinct keys in the occurrence dict,
and every tracked count equal to the object's number of occurrences on
the stack. -/
def StackInv (s : Stack) : Prop :=
  (s.counts.map Prod.fst).Nodup ∧
  ∀ o, getCount s.counts o = (s.vals.count o : Int)

/-- The pending entries `push_popjump`'s loop pops: those whose target lies
strictly before the new jump target `j`. -/
def pjPops (j : Nat) (e : PJEntry) : Bool :=
  match e.addr with
  | some a => decide (a < j)
  | none => false

/-! # Theorems -/

/-! ## Position lookup (`Code.addrIdx`) -/

theorem addrIdxAux_spec (p : Int) :
    ∀ (l : List Instr) (k j : Nat), addrIdxAux l p k = some j →
      ∃ m, j = k + m ∧ m < l.length ∧
        ∃ ins, l.get? m = some ins ∧ (ins.pos : Int) = p := by
  intro l
  induction l with
  | nil => intro k j h; simp [addrIdxAux] at h
  | cons ins rest ih =>
    intro k j h
    rw [addrIdxAux] at h
    by_cases hp : (ins.pos : Int) = p
    · rw [if_pos hp] at h
      cases h
      exact ⟨0, by omega, by simp, ins, rfl, hp⟩
    · rw [if_neg hp] at h
      obtain ⟨m, hm, hlen, ins', hget, hpos⟩ := ih (k + 1) j h
      exact ⟨m + 1, by omega, by simpa using hlen, ins', by simpa using hget, hpos⟩

theorem addrIdx_spec (c : Code) (p : Int) (j : Nat) (h : c.addrIdx p = some j) :
    j < c.len ∧ ∃ ins, c.getInstr j = some ins ∧ (ins.pos : Int) = p := by
  obtain ⟨m, hm, hlen, ins, hget, hpos⟩ := addrIdxAux_spec p c.instr_seq 0 j h
  have hj : j = m := by omega
  subst hj
  exact ⟨hlen, ins, hget, hpos⟩

/-! ## C10 -/

/-- C10: for every `Address` `a` and integer `k`, the instruction-index
subscript `a[k]` returns `None` (`none`, not an exception) exactly when
`a.index + k` falls outside `[0, number of instructions)`, and otherwise
returns the `Address` at index `a.index + k` of the same unit (an
in-range index of the same `Code`). -/
theorem address_getitem_range (c : Code) (i : Nat) (k : Int) :
    (Address.getItem c i k = none ↔
      ¬ (0 ≤ (i : Int) + k ∧ (i : Int) + k < (c.len : Int))) ∧
    (∀ j, Address.getItem c i k = some j →
      (j : Int) = (i : Int) + k ∧ j < c.len) := by
  constructor
  · unfold Address.getItem
    split <;> simp_all
  · intro j hj
    unfold Address.getItem at hj
    split at hj
    · rename_i hcond
      cases hj
      constructor
      · exact Int.toNat_of_nonneg hcond.1
      · omega
    · cases hj

/-- Witness for `address_getitem_range` at the 11-instruction example
unit: `a = index 0`, `k = 2` is in range and yields index 2, and the
out-of-range `k = 11` yields `none`. -/
theorem address_getitem_range_witness :
    ((2 : Int) = (0 : Int) + 2 ∧ 2 < exampleIfElse.len) ∧
    Address.getItem exampleIfElse 0 11 = none := by
  constructor
  · exact (address_getitem_range exampleIfElse 0 2).2 2 (by decide)
  · exact (address_getitem_range exampleIfElse 0 11).1.mpr (by decide)

/-! ## C5 -/

/-- C5 counterexample: `addr + k` is not index-relative.  In the unit
`LOAD_CONST 0; RETURN_VALUE` (positions 0 and 3), the address at index 0
plus 1 is undefined (position 1 starts no instruction) even though index
`0 + 1 = 1` exists, while adding 3 — the byte width of the first
instruction — reaches index 1. -/
theorem address_add_not_index_relative :
    Address.add exampleReturn 0 1 = none ∧
    1 < exampleReturn.len ∧
    Address.add exampleReturn 0 3 = some 1 := by decide

/-- C5 amended: `a + k` offsets by *byte position*, not by instruction
index: it resolves the byte position `a.addr + k` through the unit's
position map, and any address it returns is an in-range index of the same
unit whose instruction starts exactly at byte position `a.addr + k`
(index-relative movement is `a[k]`, see C10). -/
theorem address_add_position_relative (c : Code) (i : Nat) (k : Int) (ins : Instr)
    (h : c.getInstr i = some ins) :
    Address.add c i k = c.addrIdx ((ins.pos : Int) + k) ∧
    (∀ j, Address.add c i k = some j →
      j < c.len ∧ ∃ insj, c.getInstr j = some insj ∧
        (insj.pos : Int) = (ins.pos : Int) + k) := by
  have hadd : Address.add c i k = c.addrIdx ((ins.pos : Int) + k) := by
    unfold Address.add
    rw [h]
  refine ⟨hadd, ?_⟩
  intro j hj
  rw [hadd] at hj
  exact addrIdx_spec c _ j hj

/-- Witness for `address_add_position_relative`: at index 0 of the
example unit (position 0), adding 3 resolves to index 1, whose
instruction starts at byte position `0 + 3`. -/
theorem address_add_position_relative_witness :
    Address.add exampleReturn 0 3 = exampleReturn.addrIdx ((0 : Int) + 3) ∧
    (1 < exampleReturn.len ∧ ∃ insj, exampleReturn.getInstr 1 = some insj ∧
      (insj.pos : Int) = (0 : Int) + 3) := by
  have h := address_add_position_relative exampleReturn 0 3 ⟨0, 100, some 0⟩ (by decide)
  exact ⟨h.1, h.2 1 (by decide)⟩

/-! ## C4 -/

/-- C4: `Address.jump()`.  For a relative-offset opcode with argument
`a`, the result is the address resolved at the byte position of the
instruction's successor plus `a`; for an absolute-offset opcode the
result is the address resolved at byte position `a`; and every address it
returns is an in-range instruction index of the same unit. -/
theorem address_jump_resolution (c : Code) (i : Nat) (ins : Instr)
    (h : c.getInstr i = some ins) :
    (∀ a insSucc, hasjrel.contains ins.opcode = true → ins.arg = some a →
      c.getInstr (i + 1) = some insSucc →
      Address.jump c i = c.addrIdx ((insSucc.pos : Int) + (a : Int))) ∧
    (∀ a, hasjabs.contains ins.opcode = true → ins.arg = some a →
      Address.jump c i = c.addrIdx ((a : Int))) ∧
    (∀ j, Address.jump c i = some j → j < c.len) := by
  have hlen1 : ∀ insSucc, c.getInstr (i + 1) = some insSucc → i + 1 < c.len := by
    intro insSucc hs
    exact (List.get?_eq_some.mp hs).1
  refine ⟨?_, ?_, ?_⟩
  · intro a insSucc hrel harg hsucc
    have hil : i + 1 < c.len := hlen1 insSucc hsucc
    have hi1 : Address.getItem c i 1 = some (i + 1) := by
      unfold Address.getItem
      have hc : 0 ≤ (i : Int) + 1 ∧ (i : Int) + 1 < (c.len : Int) := by omega
      have ht : ((i : Int) + 1).toNat = i + 1 := by omega
      rw [if_pos hc, ht]
    simp only [Address.jump, h, hrel, if_true, hi1, harg]
    simp only [Address.add, hsucc]
  · intro a habs harg
    have hnotrel : hasjrel.contains ins.opcode = false := by
      simp [hasjabs, JUMP_IF_FALSE_OR_POP, JUMP_IF_TRUE_OR_POP, JUMP_ABSOLUTE,
        POP_JUMP_IF_FALSE, POP_JUMP_IF_TRUE, CONTINUE_LOOP] at habs
      simp [hasjrel, FOR_ITER, JUMP_FORWARD, SETUP_LOOP, SETUP_EXCEPT,
        SETUP_FINALLY, SETUP_WITH]
      omega
    simp only [Address.jump, h, hnotrel, Bool.false_eq_true, if_false, habs, if_true, harg]
  · intro j hj
    unfold Address.jump at hj
    rw [h] at hj
    simp only at hj
    split at hj
    · split at hj
      · rename_i j' a _
        unfold Address.add at hj
        split at hj
        · cases hj
        · exact (addrIdx_spec c _ j hj).1
      · cases hj
    · split at hj
      · split at hj
        · exact (addrIdx_spec c _ j hj).1
        · cases hj
      · cases hj

/-- Witness for `address_jump_resolution` at the example unit: the
relative `JUMP_FORWARD 7` at index 5 (successor at byte position 16)
resolves through position `16 + 7`, and the absolute
`POP_JUMP_IF_FALSE 16` at index 1 resolves through position 16; both
results are in range. -/
theorem address_jump_resolution_witness :
    (Address.jump exampleIfElse 5 = exampleIfElse.addrIdx ((16 : Int) + (7 : Int)) ∧
     Address.jump exampleIfElse 1 = exampleIfElse.addrIdx ((16 : Int)) ∧
     9 < exampleIfElse.len) := by
  have h5 := address_jump_resolution exampleIfElse 5 ⟨13, 110, some 7⟩ (by decide)
  have h1 := address_jump_resolution exampleIfElse 1 ⟨3, 114, some 16⟩ (by decide)
  refine ⟨h5.1 7 ⟨16, 101, some 2⟩ (by decide) rfl (by decide), ?_, ?_⟩
  · exact h1.2.1 16 (by decide) rfl
  · exact h5.2.2 9 (by decide)

/-! ## C1 -/

/-- C1 counterexample: in the example if/else unit the pre-pass produces
`else_jumps = {1}`, and index 1 is the `POP_JUMP_IF_FALSE` instruction
itself (at byte position 3) — it is not the target address of any jump of
the unit, conditional or otherwise. -/
theorem find_else_values_not_targets :
    findElseValues exampleIfElse = some [1, 1, 1, 1] ∧
    exampleIfElse.getInstr 1 = some ⟨3, POP_JUMP_IF_FALSE, some 16⟩ ∧
    (∀ i, i < exampleIfElse.len → Address.jump exampleIfElse i ≠ some 1) := by
  refine ⟨by decide, by decide, ?_⟩
  decide

theorem dictInsert_values_mem (d : List (Nat × Nat)) (k v x : Nat)
    (h : x ∈ (dictInsert d k v).map Prod.snd) :
    x ∈ d.map Prod.snd ∨ x = v := by
  unfold dictInsert at h
  split at h
  · simp only [List.map_map, List.mem_map] at h
    obtain ⟨p, hp, hx⟩ := h
    by_cases hk : p.1 = k
    · right
      simp [Function.comp, hk] at hx
      omega
    · left
      simp only [Function.comp, hk, if_neg, if_false] at hx
      exact List.mem_map.mpr ⟨p, hp, hx⟩
  · simp only [List.map_append, List.mem_append, List.map_cons, List.map_nil,
      List.mem_singleton] at h
    cases h with
    | inl h => exact Or.inl h
    | inr h => exact Or.inr h

theorem dictFind_mem (d : List (Nat × Nat)) (k : Nat) (kv : Nat × Nat)
    (h : dictFind d k = some kv) : kv ∈ d :=
  List.mem_of_find?_eq_some h

theorem findElseStep_inv (c : Code) (st st' : FindElseState) (i : Nat) (ins : Instr)
    (hget : c.getInstr i = some ins)
    (hstep : findElseStep c st i ins = some st')
    (hinv : FEInv c st) : FEInv c st' := by
  obtain ⟨hvals, hlast⟩ := hinv
  unfold findElseStep at hstep
  by_cases hop : pop_jump_if_opcodes.contains ins.opcode = true
  · rw [if_pos hop] at hstep
    cases harg : ins.arg with
    | none => simp only [harg] at hstep; cases hstep
    | some a =>
      simp only [harg] at hstep
      cases haddr : c.addrIdx (a : Int) with
      | none => simp only [haddr] at hstep; cases hstep
      | some ja =>
        simp only [haddr] at hstep
        cases hprev : Address.getItem c ja (-1) with
        | none => simp only [hprev] at hstep; cases hstep
        | some prev =>
          simp only [hprev] at hstep
          cases hpi : c.getInstr prev with
          | none => simp only [hpi] at hstep; cases hstep
          | some prevIns =>
            cases hji : c.getInstr ja with
            | none => simp only [hpi, hji] at hstep; cases hstep
            | some jumpIns =>
              simp only [hpi, hji] at hstep
              by_cases hcond : else_jump_opcodes.contains prevIns.opcode = true
                  ∨ jumpIns.opcode = FOR_ITER
              · rw [if_pos hcond] at hstep
                cases hstep
                refine ⟨?_, ?_⟩
                · intro v hv
                  rcases dictInsert_values_mem _ _ _ _ hv with h | h
                  · exact hvals v h
                  · exact h ▸ ⟨ins, hget, hop⟩
                · intro lj hlj
                  cases hlj
                  exact ⟨ins, hget, hop⟩
              · rw [if_neg hcond] at hstep
                cases hstep
                exact ⟨hvals, hlast⟩
  · rw [if_neg hop] at hstep
    by_cases habs : ins.opcode = JUMP_ABSOLUTE
    · rw [if_pos habs] at hstep
      cases harg : ins.arg with
      | none => simp only [harg] at hstep; cases hstep
      | some a =>
        simp only [harg] at hstep
        cases haddr : c.addrIdx (a : Int) with
        | none => simp only [haddr] at hstep; cases hstep
        | some ja =>
          simp only [haddr] at hstep
          cases hfind : dictFind st.jumps ja with
          | some kv =>
            simp only [hfind] at hstep
            cases hstep
            refine ⟨?_, hlast⟩
            intro v hv
            rcases dictInsert_values_mem _ _ _ _ hv with h | h
            · exact hvals v h
            · subst h
              exact hvals kv.2 (List.mem_map.mpr ⟨kv, dictFind_mem _ _ _ hfind, rfl⟩)
          | none =>
            simp only [hfind] at hstep
            cases hstep
            exact ⟨hvals, hlast⟩
    · rw [if_neg habs] at hstep
      by_cases hstmt : stmt_opcodes.contains ins.opcode = true
      · rw [if_pos hstmt] at hstep
        cases hlj : st.last_jump with
        | some lj =>
          simp only [hlj] at hstep
          cases hstep
          refine ⟨?_, ?_⟩
          · intro v hv
            rcases dictInsert_values_mem _ _ _ _ hv with h | h
            · exact hvals v h
            · exact h ▸ hlast lj hlj
          · intro lj' hlj'
            cases hlj'
            exact hlast lj hlj
        | none =>
          simp only [hlj] at hstep
          cases hstep
          exact ⟨hvals, hlast⟩
      · rw [if_neg hstmt] at hstep
        cases hstep
        exact ⟨hvals, hlast⟩

theorem findElseLoop_inv (c : Code) :
    ∀ (rest : List Instr) (i : Nat) (st st' : FindElseState),
      rest = c.instr_seq.drop i → FEInv c st →
      findElseLoop c rest i st = some st' → FEInv c st' := by
  intro rest
  induction rest with
  | nil =>
    intro i st st' _ hinv hloop
    cases hloop
    exact hinv
  | cons ins rest' ih =>
    intro i st st' hdrop hinv hloop
    have hget : c.getInstr i = some ins := by
      have h0 : (c.instr_seq.drop i).get? 0 = some ins := by
        rw [← hdrop]; rfl
      rw [List.get?_drop, Nat.add_zero] at h0
      exact h0
    have hdrop' : rest' = c.instr_seq.drop (i + 1) := by
      rw [← List.tail_drop, ← hdrop]
      rfl
    unfold findElseLoop at hloop
    split at hloop
    · cases hloop
    · rename_i stm hstep
      exact ih (i + 1) stm st' hdrop' (findElseStep_inv c st stm i ins hget hstep hinv) hloop

/-- C1 amended: `find_else` fills `else_jumps` with the addresses of the
conditional (`POP_JUMP_IF_x`) jump instructions it classifies as
else-jumps — every member of the set is itself the address of a
conditional jump (whose target begins the else branch), not a target
address. -/
theorem find_else_members_are_conditional_jumps (c : Code) (vs : List Nat) (x : Nat)
    (h : findElseValues c = some vs) (hx : x ∈ vs) : isPopJumpAt c x := by
  unfold findElseValues findElse at h
  cases hloop : findElseLoop c c.instr_seq 0 { jumps := [], last_jump := none } with
  | none => rw [hloop] at h; cases h
  | some stF =>
    rw [hloop] at h
    cases h
    have hinv : FEInv c { jumps := [], last_jump := none } := by
      constructor
      · intro v hv; cases hv
      · intro lj hlj; cases hlj
    have := findElseLoop_inv c c.instr_seq 0 _ stF (by simp) hinv hloop
    exact this.1 x hx

/-- Witness for `find_else_members_are_conditional_jumps`: at the example
if/else unit, member 1 of the computed else-jump set is a conditional
jump address. -/
theorem find_else_members_are_conditional_jumps_witness :
    isPopJumpAt exampleIfElse 1 :=
  find_else_members_are_conditional_jumps exampleIfElse [1, 1, 1, 1] 1
    (by decide) (by decide)

/-! ## C2 -/

/-- C2 counterexample: a new jump whose target (index 3) is *at or
before* the pending entry's target (index 5) pops nothing — the loop
breaks at once and both entries remain pending (the old one intact), so
the combination the claim prescribes for this case never happens.  (The
guard: index 3's predecessor, index 2, is not in the unit's else-jump set
`{1}`, so the target is not adjusted.) -/
theorem push_popjump_no_pop_at_or_before :
    pushPopjump exampleIfElse [1] false (some 3) (.pyname "b")
      [⟨false, some 5, .pyname "a"⟩] =
      some [⟨false, some 3, .pyname "b"⟩, ⟨false, some 5, .pyname "a"⟩] ∧
    pushPopjump exampleIfElse [1] false (some 3) (.pyname "b")
      [⟨false, some 5, .pyname "a"⟩] ≠
      some [⟨false, some 3, .booleanAnd (.pyname "a") (.pyname "b")⟩] := by
  constructor
  · rfl
  · decide

theorem pjLoop_takeWhile (j : Nat) :
    ∀ (stack : List PJEntry) (jcond : PyExpr),
      (∀ e ∈ stack, e.addr.isSome) →
      pjLoop stack (some j) jcond =
        some (stack.dropWhile (pjPops j),
              (stack.takeWhile (pjPops j)).foldl
                (fun acc e => combinePJ e.truthiness e.cond acc) jcond) := by
  intro stack
  induction stack with
  | nil => intro jcond _; rfl
  | cons e rest ih =>
    intro jcond haddrs
    obtain ⟨a, ha⟩ := Option.isSome_iff_exists.mp (haddrs e (by simp))
    by_cases hcmp : j ≤ a
    · have hbreak : pjBreakTest (some j) e.addr = some true := by
        rw [ha]
        unfold pjBreakTest
        simp only [Option.some.injEq]
        simp only [decide_eq_true_eq]
        omega
      have hpops : pjPops j e = false := by
        unfold pjPops
        rw [ha]
        simp only [decide_eq_false_iff_not]
        omega
      unfold pjLoop
      rw [hbreak]
      simp [List.dropWhile_cons, List.takeWhile_cons, hpops]
    · have hbreak : pjBreakTest (some j) e.addr = some false := by
        rw [ha]
        unfold pjBreakTest
        simp only [Option.some.injEq]
        simp only [decide_eq_false_iff_not]
        omega
      have hpops : pjPops j e = true := by
        unfold pjPops
        rw [ha]
        simp only [decide_eq_true_eq]
        omega
      unfold pjLoop
      rw [hbreak]
      rw [ih (combinePJ e.truthiness e.cond jcond) (fun x hx => haddrs x (by simp [hx]))]
      simp [List.dropWhile_cons, List.takeWhile_cons, hpops]

/-- C2 amended: on a `push_popjump` whose (unadjusted) target is `j`,
pending entries are popped and combined exactly while the pending entry's
target lies *strictly before* `j` (the loop stops as soon as `j` is at or
before the pending target); each popped entry combines into the condition
through `combinePJ`, whose truthiness picks the operator family and which
reassociates `op(op(cond, jcond.left), jcond.right)` when the incoming
condition is already of that operator class; the combined condition is
pushed with the new target and truthiness on top of the surviving
entries. -/
theorem push_popjump_pops_strictly_earlier_targets
    (c : Code) (elseJumps : List Nat) (jt : Bool) (j : Nat) (jcond : PyExpr)
    (stack : List PJEntry) (prev : Nat)
    (hprev : Address.getItem c j (-1) = some prev)
    (hnotelse : elseJumps.contains prev = false)
    (haddrs : ∀ e ∈ stack, e.addr.isSome) :
    pushPopjump c elseJumps jt (some j) jcond stack =
      some (⟨jt, some j,
             (stack.takeWhile (pjPops j)).foldl
               (fun acc e => combinePJ e.truthiness e.cond acc) jcond⟩ ::
            stack.dropWhile (pjPops j)) ∧
    (∀ cond l r, combinePJ true cond (.booleanOr l r) =
      .booleanOr (.booleanOr cond l) r) ∧
    (∀ cond l r, combinePJ false cond (.booleanAnd l r) =
      .booleanAnd (.booleanAnd cond l) r) := by
  refine ⟨?_, fun cond l r => rfl, fun cond l r => rfl⟩
  simp only [pushPopjump]
  rw [hprev]
  simp only [hnotelse, Bool.false_eq_true, if_false]
  rw [pjLoop_takeWhile j stack jcond haddrs]

/-- Witness for `push_popjump_pops_strictly_earlier_targets`: new target
7; the pending entry at target 5 (strictly earlier) is popped and
combined, the one at target 9 survives. -/
theorem push_popjump_pops_strictly_earlier_targets_witness :
    pushPopjump exampleIfElse [1] true (some 7) (.pyname "b")
      [⟨false, some 5, .pyname "a"⟩, ⟨true, some 9, .pyname "c"⟩] =
      some [⟨true, some 7, .booleanAnd (.pyname "a") (.pyname "b")⟩,
            ⟨true, some 9, .pyname "c"⟩] := by
  have h := push_popjump_pops_strictly_earlier_targets exampleIfElse [1] true 7
    (.pyname "b") [⟨false, some 5, .pyname "a"⟩, ⟨true, some 9, .pyname "c"⟩] 6
    (by decide) (by decide) (by decide)
  exact h.1.trans (by decide)

/-! ## Association lists keyed by object id

Generic facts about lookup (`find?` on the key), keyed replacement, append
of a fresh key, and keyed erasure — the building blocks of both the
occurrence dict (`setCount`) and the object heap (`heapSet`). -/

theorem find?_none_of_not_mem_keys {α : Type} (l : List (Nat × α)) (k : Nat)
    (h : k ∉ l.map Prod.fst) : l.find? (fun p => p.1 = k) = none := by
  induction l with
  | nil => rfl
  | cons p rest ih =>
    simp only [List.map_cons, List.mem_cons, not_or] at h
    have hfp : decide (p.1 = k) = false := by
      simp only [decide_eq_false_iff_not]
      exact fun he => h.1 he.symm
    rw [List.find?_cons]
    simp only [hfp]
    exact ih h.2

theorem find?_keyReplace_self {α : Type} (l : List (Nat × α)) (k : Nat) (v : α)
    (h : l.any (fun p => p.1 = k) = true) :
    (l.map (fun p => if p.1 = k then (k, v) else p)).find? (fun p => p.1 = k) =
      some (k, v) := by
  induction l with
  | nil => cases h
  | cons p rest ih =>
    simp only [List.any_cons, Bool.or_eq_true] at h
    by_cases hp : p.1 = k
    · simp only [List.map_cons, if_pos hp]
      rw [List.find?_cons]
      simp
    · have hfp : decide (p.1 = k) = false := by simp [hp]
      simp only [List.map_cons, if_neg hp]
      rw [List.find?_cons]
      simp only [hfp]
      refine ih ?_
      rcases h with h | h
      · exact absurd (of_decide_eq_true h) hp
      · exact h

theorem find?_keyReplace_other {α : Type} (l : List (Nat × α)) (k k' : Nat) (v : α)
    (h : k' ≠ k) :
    (l.map (fun p => if p.1 = k then (k, v) else p)).find? (fun p => p.1 = k') =
      l.find? (fun p => p.1 = k') := by
  induction l with
  | nil => rfl
  | cons p rest ih =>
    by_cases hp : p.1 = k
    · have h1 : decide (((k, v) : Nat × α).1 = k') = false := by
        simp only [decide_eq_false_iff_not]
        exact fun he => h he.symm
      have h2 : decide (p.1 = k') = false := by
        simp only [decide_eq_false_iff_not]
        rw [hp]
        exact fun he => h he.symm
      simp only [List.map_cons, if_pos hp]
      rw [List.find?_cons, List.find?_cons]
      simp only [h1, h2]
      exact ih
    · simp only [List.map_cons, if_neg hp]
      rw [List.find?_cons, List.find?_cons]
      cases hfp : decide (p.1 = k')
      · simp only [hfp]
        exact ih
      · simp only [hfp]

theorem find?_appendKey_self {α : Type} (l : List (Nat × α)) (k : Nat) (v : α)
    (h : l.any (fun p => p.1 = k) = false) :
    (l ++ [(k, v)]).find? (fun p => p.1 = k) = some (k, v) := by
  induction l with
  | nil =>
    simp only [List.nil_append]
    rw [List.find?_cons]
    simp
  | cons p rest ih =>
    simp only [List.any_cons, Bool.or_eq_false_iff] at h
    simp only [List.cons_append]
    rw [List.find?_cons]
    simp only [h.1]
    exact ih h.2

theorem find?_appendKey_other {α : Type} (l : List (Nat × α)) (k k' : Nat) (v : α)
    (h : k' ≠ k) :
    (l ++ [(k, v)]).find? (fun p => p.1 = k') = l.find? (fun p => p.1 = k') := by
  induction l with
  | nil =>
    have h1 : decide (((k, v) : Nat × α).1 = k') = false := by
      simp only [decide_eq_false_iff_not]
      exact fun he => h he.symm
    simp only [List.nil_append]
    rw [List.find?_cons]
    simp only [h1]
  | cons p rest ih =>
    simp only [List.cons_append]
    rw [List.find?_cons, List.find?_cons]
    cases hfp : decide (p.1 = k')
    · simp only [hfp]
      exact ih
    · simp only [hfp]

theorem find?_eraseKey_self {α : Type} (l : List (Nat × α)) (k : Nat)
    (h : (l.map Prod.fst).Nodup) :
    (l.eraseP (fun p => p.1 = k)).find? (fun p => p.1 = k) = none := by
  induction l with
  | nil => rfl
  | cons p rest ih =>
    simp only [List.map_cons, List.nodup_cons] at h
    by_cases hp : p.1 = k
    · rw [List.eraseP_cons_of_pos (by simpa using hp)]
      refine find?_none_of_not_mem_keys rest k ?_
      rw [← hp]
      exact h.1
    · rw [List.eraseP_cons_of_neg (by simpa using hp)]
      have hfp : decide (p.1 = k) = false := by simp [hp]
      rw [List.find?_cons]
      simp only [hfp]
      exact ih h.2

theorem find?_eraseKey_other {α : Type} (l : List (Nat × α)) (k k' : Nat)
    (h : k' ≠ k) :
    (l.eraseP (fun p => p.1 = k)).find? (fun p => p.1 = k') =
      l.find? (fun p => p.1 = k') := by
  induction l with
  | nil => rfl
  | cons p rest ih =>
    by_cases hp : p.1 = k
    · rw [List.eraseP_cons_of_pos (by simpa using hp)]
      have hfp : decide (p.1 = k') = false := by
        simp only [decide_eq_false_iff_not]
        rw [hp]
        exact fun he => h he.symm
      rw [List.find?_cons]
      simp only [hfp]
    · rw [List.eraseP_cons_of_neg (by simpa using hp)]
      rw [List.find?_cons, List.find?_cons]
      cases hfp : decide (p.1 = k')
      · simp only [hfp]
        exact ih
      · simp only [hfp]

theorem keys_not_mem_of_any_false {α : Type} (l : List (Nat × α)) (k : Nat)
    (h : l.any (fun p => p.1 = k) = false) : k ∉ l.map Prod.fst := by
  intro hmem
  obtain ⟨p, hp, hk⟩ := List.mem_map.mp hmem
  have : l.any (fun p => p.1 = k) = true :=
    List.any_eq_true.mpr ⟨p, hp, by simp [hk]⟩
  rw [h] at this
  cases this

/-! ## `setCount` / `getCount` -/

theorem getCount_setCount_self (cs : List (Nat × Int)) (o : Nat) (v : Int)
    (hnodup : (cs.map Prod.fst).Nodup) :
    getCount (setCount cs o v) o = v := by
  unfold setCount getCount
  by_cases hv : v = 0
  · rw [if_pos hv, find?_eraseKey_self cs o hnodup, hv]
  · rw [if_neg hv]
    by_cases hany : cs.any (fun p => p.1 = o) = true
    · rw [if_pos hany, find?_keyReplace_self cs o v hany]
    · rw [if_neg hany, find?_appendKey_self cs o v (by revert hany; cases cs.any (fun p => p.1 = o) <;> simp)]

theorem getCount_setCount_other (cs : List (Nat × Int)) (o o' : Nat) (v : Int)
    (h : o' ≠ o) :
    getCount (setCount cs o v) o' = getCount cs o' := by
  unfold setCount getCount
  by_cases hv : v = 0
  · rw [if_pos hv, find?_eraseKey_other cs o o' h]
  · rw [if_neg hv]
    by_cases hany : cs.any (fun p => p.1 = o) = true
    · rw [if_pos hany, find?_keyReplace_other cs o o' v h]
    · rw [if_neg hany, find?_appendKey_other cs o o' v h]

theorem setCount_keys_nodup (cs : List (Nat × Int)) (o : Nat) (v : Int)
    (h : (cs.map Prod.fst).Nodup) :
    ((setCount cs o v).map Prod.fst).Nodup := by
  unfold setCount
  by_cases hv : v = 0
  · rw [if_pos hv]
    exact List.Nodup.sublist (List.Sublist.map Prod.fst (List.eraseP_sublist cs)) h
  · rw [if_neg hv]
    by_cases hany : cs.any (fun p => p.1 = o) = true
    · rw [if_pos hany]
      have hkeys : (cs.map (fun p => if p.1 = o then (o, v) else p)).map Prod.fst =
          cs.map Prod.fst := by
        rw [List.map_map]
        refine List.map_congr_left ?_
        intro p _
        by_cases hp : p.1 = o
        · simp [Function.comp, hp]
        · simp [Function.comp, hp]
      rw [hkeys]
      exact h
    · rw [if_neg hany]
      rw [List.map_append]
      refine List.Nodup.append h (by simp) ?_
      intro x hx hy
      simp only [List.map_cons, List.map_nil, List.mem_singleton] at hy
      rw [hy] at hx
      exact keys_not_mem_of_any_false cs o
        (by revert hany; cases cs.any (fun p => p.1 = o) <;> simp) hx

/-! ## C8 -/

theorem push1_inv (s : Stack) (o : Nat) (h : StackInv s) : StackInv (s.push1 o) := by
  obtain ⟨hnodup, hcount⟩ := h
  constructor
  · exact setCount_keys_nodup _ _ _ hnodup
  · intro o'
    by_cases ho : o' = o
    · subst ho
      rw [Stack.push1]
      simp only
      rw [getCount_setCount_self _ _ _ hnodup, hcount o']
      simp [List.count_cons]
    · rw [Stack.push1]
      simp only
      rw [getCount_setCount_other _ _ _ _ ho, hcount o']
      simp [List.count_cons, ho]

theorem pop1_inv (s s' : Stack) (o : Nat) (hpop : s.pop1 = some (o, s'))
    (h : StackInv s) : StackInv s' := by
  obtain ⟨hnodup, hcount⟩ := h
  unfold Stack.pop1 at hpop
  cases hv : s.vals with
  | nil => rw [hv] at hpop; cases hpop
  | cons x rest =>
    rw [hv] at hpop
    cases hpop
    constructor
    · exact setCount_keys_nodup _ _ _ hnodup
    · intro o'
      by_cases ho : o' = o
      · subst ho
        simp only
        rw [getCount_setCount_self _ _ _ hnodup, hcount o', hv]
        simp [List.count_cons]
      · simp only
        rw [getCount_setCount_other _ _ _ _ ho, hcount o', hv]
        simp [List.count_cons, ho]

theorem popN_inv (n : Nat) :
    ∀ (s s' : Stack) (os : List Nat), s.popN n = some (os, s') →
      StackInv s → StackInv s' := by
  induction n with
  | zero =>
    intro s s' os hpop h
    unfold Stack.popN at hpop
    cases hpop
    exact h
  | succ n ih =>
    intro s s' os hpop h
    unfold Stack.popN at hpop
    split at hpop
    · cases hpop
    · rename_i o1 s1 hp1
      split at hpop
      · cases hpop
      · rename_i os1 s2 hpn
        cases hpop
        exact ih s1 s' os1 hpn (pop1_inv s s1 o1 hp1 h)

theorem step_inv (op : StackOp) (s s' : Stack) (hstep : op.step s = some s')
    (h : StackInv s) : StackInv s' := by
  cases op with
  | push o =>
    cases hstep
    exact push1_inv s o h
  | pop =>
    simp only [StackOp.step] at hstep
    cases hp : s.pop1 with
    | none => rw [hp] at hstep; cases hstep
    | some p =>
      rw [hp] at hstep
      cases hstep
      exact pop1_inv s p.2 p.1 (by rw [hp]) h
  | popn n =>
    simp only [StackOp.step] at hstep
    cases hp : s.popN n with
    | none => rw [hp] at hstep; cases hstep
    | some p =>
      rw [hp] at hstep
      cases hstep
      exact popN_inv n s p.2 p.1 (by rw [hp]) h
  | peek =>
    simp only [StackOp.step] at hstep
    cases hp : s.peek1 with
    | none => rw [hp] at hstep; cases hstep
    | some x =>
      rw [hp] at hstep
      cases hstep
      exact h
  | peekn n =>
    cases hstep
    exact h

theorem runOps_inv (ops : List StackOp) :
    ∀ (s s' : Stack), runOps ops s = some s' → StackInv s → StackInv s' := by
  induction ops with
  | nil =>
    intro s s' hrun h
    cases hrun
    exact h
  | cons op rest ih =>
    intro s s' hrun h
    unfold runOps at hrun
    cases hstep : op.step s with
    | none => rw [hstep] at hrun; cases hrun
    | some sm =>
      rw [hstep] at hrun
      exact ih sm s' hrun (step_inv op s sm hstep h)

/-- C8: after any sequence of `push` / `pop` / `pop(n)` / `peek`
operations that runs without raising on an initially empty evaluation
stack, every object's tracked occurrence count equals its number of
occurrences (by object identity) on the stack, is never negative, and the
membership test (`__contains__`) answers true exactly when the count is
nonzero. -/
theorem stack_counts_invariant (ops : List StackOp) (s : Stack)
    (h : runOps ops Stack.empty = some s) :
    ∀ o, s.count o = (s.vals.count o : Int) ∧
      0 ≤ s.count o ∧
      (s.containsObj o = true ↔ s.count o ≠ 0) := by
  have hempty : StackInv Stack.empty := by
    constructor
    · simp [Stack.empty]
    · intro o
      simp [Stack.empty, getCount]
  have hinv := runOps_inv ops Stack.empty s h hempty
  intro o
  have hc : s.count o = (s.vals.count o : Int) := hinv.2 o
  refine ⟨hc, by rw [hc]; exact Int.natCast_nonneg _, ?_⟩
  unfold Stack.containsObj
  rw [hc]
  constructor
  · intro hlt
    have := of_decide_eq_true hlt
    omega
  · intro hne
    refine decide_eq_true ?_
    have : 0 ≤ (s.vals.count o : Int) := Int.natCast_nonneg _
    omega

/-- Witness for `stack_counts_invariant`: the run
`push 5; push 5; push 7; pop; pop(2)` succeeds and empties the stack, and
the invariant instantiates at object 5. -/
theorem stack_counts_invariant_witness :
    Stack.count ⟨[], []⟩ 5 = ((List.count 5 ([] : List Nat) : Nat) : Int) ∧
    0 ≤ Stack.count ⟨[], []⟩ 5 ∧
    (Stack.containsObj ⟨[], []⟩ 5 = true ↔ Stack.count ⟨[], []⟩ 5 ≠ 0) := by
  have h := stack_counts_invariant
    [.push 5, .push 5, .push 7, .pop, .popn 2] ⟨[], []⟩ (by decide) 5
  exact h

/-! ## The object heap -/

theorem heapGet_heapSet_self (h : List (Nat × Obj)) (i : Nat) (o : Obj) :
    heapGet (heapSet h i o) i = some o := by
  unfold heapGet heapSet
  by_cases hany : h.any (fun p => p.1 = i) = true
  · rw [if_pos hany, find?_keyReplace_self h i o hany]
    rfl
  · rw [if_neg hany,
      find?_appendKey_self h i o (by revert hany; cases h.any (fun p => p.1 = i) <;> simp)]
    rfl

theorem heapGet_heapSet_other (h : List (Nat × Obj)) (i j : Nat) (o : Obj)
    (hij : j ≠ i) : heapGet (heapSet h i o) j = heapGet h j := by
  unfold heapGet heapSet
  by_cases hany : h.any (fun p => p.1 = i) = true
  · rw [if_pos hany, find?_keyReplace_other h i j o hij]
  · rw [if_neg hany, find?_appendKey_other h i j o hij]

/-! ## C6 -/

/-- C6: in the and-combination step of `JUMP_IF_FALSE_OR_POP`, a left
comparison combined with a right comparison whose first operand equals
the left's last operand merges into the single chained comparison
(`left.complist + right.complist[1:]`), and the merged chain renders as
`a < b < c` — not as the boolean-and form `a < b and b < c`. -/
theorem compare_chain_merge (f1 : PyExpr) (r1 : CmpRest) (f2 : PyExpr) (r2 : CmpRest)
    (h : exprEq f2 (cmpLast f1 r1) = true) :
    combineAnd (.compare f1 r1) (.compare f2 r2) = .compare f1 (r1.append r2) ∧
    render (combineAnd (.compare (.pyname "a") (.cons "<" (.pyname "b") .nil))
        (.compare (.pyname "b") (.cons "<" (.pyname "c") .nil))) = "a < b < c" ∧
    render (.booleanAnd (.compare (.pyname "a") (.cons "<" (.pyname "b") .nil))
        (.compare (.pyname "b") (.cons "<" (.pyname "c") .nil))) =
      "a < b and b < c" ∧
    "a < b < c" ≠ "a < b and b < c" := by
  refine ⟨?_, by rfl, by rfl, by decide⟩
  simp only [combineAnd, extendsCompare, h, if_true, chainCompare]

/-- Witness for `compare_chain_merge` at `a < b` and `b < c` (shared
operand `b`). -/
theorem compare_chain_merge_witness :
    combineAnd (.compare (.pyname "a") (.cons "<" (.pyname "b") .nil))
        (.compare (.pyname "b") (.cons "<" (.pyname "c") .nil)) =
      .compare (.pyname "a")
        (CmpRest.append (.cons "<" (.pyname "b") .nil) (.cons "<" (.pyname "c") .nil)) :=
  (compare_chain_merge (.pyname "a") (.cons "<" (.pyname "b") .nil)
    (.pyname "b") (.cons "<" (.pyname "c") .nil) (by rfl)).1

/-! ## C7 -/

/-- C7 (code bug at `argc == 2`): `RAISE_VARARGS 0` emits a bare `raise`
popping nothing; `RAISE_VARARGS 1` pops one operand and emits
`raise <exc>`; an unrecognized argc (3) aborts (the `raise Unknown`
`NameError`); but `RAISE_VARARGS 2` — even with its two operands
available as a pair on the stack — pops a single object and then raises
`AttributeError` on the `"raise {} from {}". exc` typo before emitting
anything: the unit's reconstruction aborts instead of producing the
raise-from statement the claim (and the handler's own format string)
describes. -/
theorem raise_varargs_dispatch :
    RAISE_VARARGS 0 raiseOneState =
      .ok { raiseOneState with suite := [.simple "raise"] } ∧
    RAISE_VARARGS 1 raiseOneState =
      .ok { raiseOneState with stack := ⟨[], []⟩, suite := [.simple "raise exc"] } ∧
    RAISE_VARARGS 2 raiseTwoState = .error .attributeErr ∧
    RAISE_VARARGS 3 raiseTwoState = .error .nameUnknown := by
  exact ⟨rfl, rfl, rfl, rfl⟩

/-! ## C9 -/

theorem pop1_cons (vals : List Nat) (cs : List (Nat × Int)) (x : Nat)
    (xs : List Nat) (hv : vals = x :: xs) :
    Stack.pop1 ⟨vals, cs⟩ =
      some (x, ⟨xs, setCount cs x (getCount cs x - 1)⟩) := by
  subst hv
  rfl

/-- C9: the `ROT_TWO` handler in effect pops two values and pushes one
`Unpack` accumulator of arity 2 — whose source is the tuple of the two
popped values in the order the batch pop returns them (bottom-to-top) —
twice onto the stack; the result is never the plain swap of the two
popped objects that the shadowed earlier definition would produce. -/
theorem rot_two_pushes_unpack_pair (st : DecState) (a b : Nat) (rest : List Nat)
    (ea eb : PyExpr)
    (hv : st.stack.vals = a :: b :: rest)
    (ha : heapGet st.heap a = some (.expr ea))
    (hb : heapGet st.heap b = some (.expr eb))
    (hbound : ∀ o ∈ st.stack.vals, o < st.nextId) :
    ∃ st', ROT_TWO st = some st' ∧
      st'.stack.vals = (st.nextId + 1) :: (st.nextId + 1) :: rest ∧
      heapGet st'.heap (st.nextId + 1) =
        some (.unpack ⟨st.nextId, 2, none, []⟩) ∧
      heapGet st'.heap st.nextId =
        some (.expr (.tuple (.cons eb (.cons ea .nil)))) ∧
      (∀ stS, ROT_TWO_shadowed st = some stS → st'.stack.vals ≠ stS.stack.vals) := by
  have h1 : st.stack.pop1 =
      some (a, ⟨b :: rest, setCount st.stack.counts a (getCount st.stack.counts a - 1)⟩) := by
    unfold Stack.pop1
    rw [hv]
  have h2 : Stack.pop1 ⟨b :: rest, setCount st.stack.counts a (getCount st.stack.counts a - 1)⟩ =
      some (b, ⟨rest, setCount (setCount st.stack.counts a (getCount st.stack.counts a - 1)) b
        (getCount (setCount st.stack.counts a (getCount st.stack.counts a - 1)) b - 1)⟩) := rfl
  have hpop2 : st.stack.popN 2 =
      some ([b, a], ⟨rest, setCount (setCount st.stack.counts a (getCount st.stack.counts a - 1)) b
        (getCount (setCount st.stack.counts a (getCount st.stack.counts a - 1)) b - 1)⟩) := by
    simp only [Stack.popN, h1, h2]
    rfl
  have hrot : ROT_TWO st = some
      { stack := ((⟨rest, setCount (setCount st.stack.counts a (getCount st.stack.counts a - 1)) b
          (getCount (setCount st.stack.counts a (getCount st.stack.counts a - 1)) b - 1)⟩ : Stack).push1
            (st.nextId + 1)).push1 (st.nextId + 1)
        heap := heapSet (heapSet st.heap st.nextId
            (.expr (.tuple (.cons eb (.cons ea .nil)))))
          (st.nextId + 1) (.unpack ⟨st.nextId, 2, none, []⟩)
        nextId := st.nextId + 2
        suite := st.suite
        chain := st.chain } := by
    simp only [ROT_TWO, hpop2, hb, ha, DecState.alloc]
    rfl
  refine ⟨_, hrot, ?_, ?_, ?_, ?_⟩
  · rfl
  · exact heapGet_heapSet_self _ _ _
  · rw [heapGet_heapSet_other _ _ _ _ (by omega)]
    exact heapGet_heapSet_self _ _ _
  · intro stS hS
    have hb_lt : b < st.nextId := hbound b (by rw [hv]; simp)
    intro hcontra
    simp only at hcontra
    have hSvals : stS.stack.vals = b :: a :: rest := by
      unfold ROT_TWO_shadowed at hS
      rw [hpop2] at hS
      simp only at hS
      cases hS
      rfl
    rw [hSvals] at hcontra
    have : st.nextId + 1 = b := by
      have := List.cons.injEq (st.nextId + 1) ((st.nextId + 1) :: rest) b (a :: rest) ▸ hcontra
      exact (List.cons.inj hcontra).1
    omega

/-! ## C3 -/

theorem runStores_append (fuel : Nat) (xs ys : List PyExpr) :
    ∀ st, runStores fuel (xs ++ ys) st =
      match runStores fuel xs st with
      | none => none
      | some s' => runStores fuel ys s' := by
  induction xs with
  | nil => intro st; rfl
  | cons d ds ih =>
    intro st
    simp only [List.cons_append, runStores]
    cases decStore fuel d st with
    | none => rfl
    | some st' => exact ih st'

theorem push_inv (os : List Nat) : ∀ s, StackInv s → StackInv (s.push os) := by
  induction os with
  | nil => intro s h; exact h
  | cons o os ih => intro s h; exact ih (s.push1 o) (push1_inv s o h)

theorem push_replicate_vals (uid : Nat) :
    ∀ (n : Nat) (s : Stack),
      (s.push (List.replicate n uid)).vals = List.replicate n uid ++ s.vals := by
  intro n
  induction n with
  | zero => intro s; rfl
  | succ n ih =>
    intro s
    have hrep : List.replicate (n + 1) uid = uid :: List.replicate n uid :=
      List.replicate_succ uid n
    rw [hrep]
    show ((s.push1 uid).push (List.replicate n uid)).vals = _
    rw [ih (s.push1 uid)]
    show List.replicate n uid ++ (uid :: s.vals) = (uid :: List.replicate n uid) ++ s.vals
    have h1 : List.replicate n uid ++ [uid] = uid :: List.replicate n uid := by
      rw [← List.replicate_succ']
      rw [List.replicate_succ]
    rw [List.append_cons, h1]

/-- One completed or partial run of `Unpack.store` calls: starting from a
state whose stack holds exactly one reference to the shared accumulator
per remaining destination (above `rest`), each store before the last
emits nothing, and the last one emits exactly one assignment whose target
is the tuple of all accumulated destinations and whose source is the
`Unpack`'s saved value. -/
theorem unpack_store_run (uid vid : Nat) (e : PyExpr) (rest : List Nat)
    (_huid : uid ∉ rest) (hvid : vid ∉ rest) (hvu : vid ≠ uid) :
    ∀ (todo done : List PyExpr) (L : Nat) (stk : DecState),
      stk.stack.vals = List.replicate todo.length uid ++ rest →
      StackInv stk.stack →
      heapGet stk.heap uid = some (.unpack ⟨vid, L, none, done⟩) →
      heapGet stk.heap vid = some (.expr e) →
      stk.chain = [] →
      L = done.length + todo.length →
      todo ≠ [] →
      (∃ stN, runStores 2 todo stk = some stN ∧
        stN.suite = stk.suite ++
          [.assign [.tuple (ExprList.ofList (done ++ todo)), e]] ∧
        stN.chain = [] ∧ stN.stack.vals = rest) ∧
      (∀ k, k < todo.length →
        ∃ stk', runStores 2 (todo.take k) stk = some stk' ∧ stk'.suite = stk.suite) := by
  intro todo
  induction todo with
  | nil =>
    intro done L stk _ _ _ _ _ _ hne
    exact absurd rfl hne
  | cons d todo' ih =>
    intro done L stk hvals hinv hheapU hheapV hchain hL _
    have hvals' : stk.stack.vals = uid :: (List.replicate todo'.length uid ++ rest) := by
      rw [hvals, List.length_cons, List.replicate_succ]
      rfl
    have hpop : stk.stack.pop1 =
        some (uid, ⟨List.replicate todo'.length uid ++ rest,
          setCount stk.stack.counts uid (getCount stk.stack.counts uid - 1)⟩) := by
      unfold Stack.pop1
      rw [hvals']
    have hinvPop : StackInv (⟨List.replicate todo'.length uid ++ rest,
        setCount stk.stack.counts uid (getCount stk.stack.counts uid - 1)⟩ : Stack) :=
      pop1_inv stk.stack _ uid hpop hinv
    cases todo' with
    | nil =>
      -- the final store: the accumulator completes and one assignment is emitted
      set c1 := setCount stk.stack.counts uid (getCount stk.stack.counts uid - 1) with hc1
      set c2 := setCount c1 vid (getCount c1 vid + 1) with hc2
      set c3 := setCount c2 vid (getCount c2 vid - 1) with hc3
      have hlen : (done ++ [d]).length = L := by
        simp only [List.length_append, List.length_cons, List.length_nil] at hL ⊢
        omega
      have hpop2 : Stack.pop1 ⟨vid :: rest, c2⟩ = some (vid, ⟨rest, c3⟩) := rfl
      have hinvPush : StackInv (⟨vid :: rest, c2⟩ : Stack) := by
        have := push1_inv ⟨List.replicate 0 uid ++ rest, c1⟩ vid hinvPop
        simpa [Stack.push1] using this
      have hinvPop2 : StackInv (⟨rest, c3⟩ : Stack) :=
        pop1_inv _ _ vid hpop2 hinvPush
      have hnocontains : Stack.containsObj ⟨rest, c3⟩ vid = false := by
        unfold Stack.containsObj Stack.count
        rw [hinvPop2.2 vid]
        simp only
        rw [List.count_eq_zero.mpr hvid]
        decide
      have hheapV' : heapGet (heapSet stk.heap uid (.unpack ⟨vid, L, none, done ++ [d]⟩)) vid =
          some (.expr e) := by
        rw [heapGet_heapSet_other _ _ _ _ hvu]
        exact hheapV
      have hfinal : runStores 2 [d] stk = some
          { stack := ⟨rest, c3⟩
            heap := heapSet stk.heap uid (.unpack ⟨vid, L, none, done ++ [d]⟩)
            nextId := stk.nextId
            suite := stk.suite ++ [.assign [.tuple (ExprList.ofList (done ++ [d])), e]]
            chain := [] } := by
        show (match decStore 2 d stk with
          | none => none
          | some st' => runStores 2 [] st') = _
        simp only [decStore, hpop, hheapU, Bool.false_eq_true, if_false]
        rw [if_pos hlen]
        have hpush1 : Stack.push1 ⟨List.replicate ([] : List PyExpr).length uid ++ rest, c1⟩ vid =
            ⟨vid :: rest, c2⟩ := rfl
        rw [hpush1]
        simp only [decStore, hpop2, hheapV', hchain, hnocontains, Bool.false_eq_true, if_false]
        rfl
      constructor
      · exact ⟨_, hfinal, rfl, rfl, rfl⟩
      · intro k hk
        simp only [List.length_cons, List.length_nil] at hk
        have hk0 : k = 0 := by omega
        subst hk0
        exact ⟨stk, rfl, rfl⟩
    | cons d2 rest2 =>
      -- an intermediate store: the accumulator grows, nothing is emitted
      have hneq : ¬ ((done ++ [d]).length = L) := by
        simp only [List.length_append, List.length_cons, List.length_nil] at hL ⊢
        omega
      have hstep : decStore 2 d stk = some
          { stk with
            stack := ⟨List.replicate (d2 :: rest2).length uid ++ rest,
              setCount stk.stack.counts uid (getCount stk.stack.counts uid - 1)⟩
            heap := heapSet stk.heap uid (.unpack ⟨vid, L, none, done ++ [d]⟩) } := by
        simp only [decStore, hpop, hheapU, Bool.false_eq_true, if_false]
        rw [if_neg hneq]
      have hih := ih (done ++ [d]) L
        { stk with
          stack := ⟨List.replicate (d2 :: rest2).length uid ++ rest,
            setCount stk.stack.counts uid (getCount stk.stack.counts uid - 1)⟩
          heap := heapSet stk.heap uid (.unpack ⟨vid, L, none, done ++ [d]⟩) }
        rfl hinvPop (heapGet_heapSet_self _ _ _)
        (by rw [heapGet_heapSet_other _ _ _ _ hvu]; exact hheapV)
        hchain
        (by simp only [List.length_append, List.length_cons, List.length_nil] at hL ⊢; omega)
        (by simp)
      obtain ⟨⟨stN, hrun, hsuite, hchainN, hvalsN⟩, hpre⟩ := hih
      constructor
      · refine ⟨stN, ?_, ?_, hchainN, hvalsN⟩
        · show (match decStore 2 d stk with
            | none => none
            | some st' => runStores 2 (d2 :: rest2) st') = some stN
          rw [hstep]
          exact hrun
        · rw [hsuite]
          simp only
          rw [List.append_assoc done [d] (d2 :: rest2)]
          rfl
      · intro k hk
        cases k with
        | zero => exact ⟨stk, rfl, rfl⟩
        | succ k' =>
          simp only [List.length_cons] at hk
          obtain ⟨stk', hrun', hsuite'⟩ := hpre k' (by simp only [List.length_cons]; omega)
          refine ⟨stk', ?_, hsuite'⟩
          show (match decStore 2 d stk with
            | none => none
            | some st' => runStores 2 ((d2 :: rest2).take k') st') = some stk'
          rw [hstep]
          exact hrun'

/-- C3 amended: a `UNPACK_SEQUENCE N` (N ≥ 1) creates one `Unpack`
accumulator and pushes it `N` times; the following stores accumulate one
destination per call and emit nothing before the `N`-th; *provided* that
after completion the popped source value is no longer referenced on the
stack and no assignment chain is pending, the `N`-th store emits exactly
one assignment statement whose target is the tuple of the `N` accumulated
destinations and whose source is the popped value.  (When the source is
still referenced — a chained assignment — the `N`-th store defers the
tuple into the pending chain instead; see the counterexample.) -/
theorem unpack_sequence_emits_single_assignment
    (st0 : DecState) (vid : Nat) (rest : List Nat) (e : PyExpr)
    (dests : List PyExpr) (N : Nat)
    (hv : st0.stack.vals = vid :: rest)
    (hvr : vid ∉ rest)
    (hinv : StackInv st0.stack)
    (hheap : heapGet st0.heap vid = some (.expr e))
    (hchain : st0.chain = [])
    (hfresh : st0.nextId ∉ st0.stack.vals)
    (hheapF : heapGet st0.heap st0.nextId = none)
    (hN : dests.length = N) (hNpos : 0 < N) :
    ∃ st1, UNPACK_SEQUENCE N st0 = some st1 ∧
      st1.stack.vals = List.replicate N st0.nextId ++ rest ∧
      heapGet st1.heap st0.nextId = some (.unpack ⟨vid, N, none, []⟩) ∧
      (∀ k, k < N → ∃ stk, runStores 2 (dests.take k) st1 = some stk ∧
        stk.suite = st0.suite) ∧
      (∃ stN, runStores 2 dests st1 = some stN ∧
        stN.suite = st0.suite ++
          [.assign [.tuple (ExprList.ofList dests), e]] ∧
        stN.chain = [] ∧ stN.stack.vals = rest) := by
  have hvu : vid ≠ st0.nextId := by
    intro hcontra
    rw [hcontra, hheapF] at hheap
    cases hheap
  have huid_rest : st0.nextId ∉ rest := by
    intro hmem
    exact hfresh (by rw [hv]; exact List.mem_cons_of_mem vid hmem)
  have hpop : st0.stack.pop1 =
      some (vid, ⟨rest, setCount st0.stack.counts vid (getCount st0.stack.counts vid - 1)⟩) := by
    unfold Stack.pop1
    rw [hv]
  have hst1 : UNPACK_SEQUENCE N st0 = some
      { stack := (⟨rest, setCount st0.stack.counts vid (getCount st0.stack.counts vid - 1)⟩ : Stack).push
          (List.replicate N st0.nextId)
        heap := heapSet st0.heap st0.nextId (.unpack ⟨vid, N, none, []⟩)
        nextId := st0.nextId + 1
        suite := st0.suite
        chain := st0.chain } := by
    simp only [UNPACK_SEQUENCE, hpop, DecState.alloc]
  have hvals1 : ((⟨rest, setCount st0.stack.counts vid (getCount st0.stack.counts vid - 1)⟩ : Stack).push
      (List.replicate N st0.nextId)).vals = List.replicate N st0.nextId ++ rest := by
    rw [push_replicate_vals]
  have hinv1 : StackInv ((⟨rest, setCount st0.stack.counts vid (getCount st0.stack.counts vid - 1)⟩ : Stack).push
      (List.replicate N st0.nextId)) :=
    push_inv _ _ (pop1_inv st0.stack _ vid hpop hinv)
  have hrun := unpack_store_run st0.nextId vid e rest huid_rest hvr hvu
    dests [] N
    { stack := (⟨rest, setCount st0.stack.counts vid (getCount st0.stack.counts vid - 1)⟩ : Stack).push
        (List.replicate N st0.nextId)
      heap := heapSet st0.heap st0.nextId (.unpack ⟨vid, N, none, []⟩)
      nextId := st0.nextId + 1
      suite := st0.suite
      chain := st0.chain }
    (by simp only; rw [hvals1, hN])
    hinv1
    (by simp only; exact heapGet_heapSet_self _ _ _)
    (by simp only; rw [heapGet_heapSet_other _ _ _ _ hvu]; exact hheap)
    hchain
    (by simp; omega)
    (by intro hcontra; rw [hcontra] at hN; simp at hN; omega)
  obtain ⟨⟨stN, hrunN, hsuiteN, hchainN, hvalsN⟩, hpre⟩ := hrun
  refine ⟨_, hst1, by simp only; rw [hvals1], ?_, ?_, stN, hrunN, by simpa using hsuiteN, hchainN, hvalsN⟩
  · simp only
    exact heapGet_heapSet_self _ _ _
  · intro k hk
    rw [← hN] at hk
    obtain ⟨stk, h1, h2⟩ := hpre k hk
    exact ⟨stk, h1, h2⟩

/-- C3 counterexample: at the `UNPACK_SEQUENCE 2` of the chained
assignment `a, b = t = u` the source `u` is still referenced on the stack
(its second reference belongs to the pending store to `t`), so the second
(`N`-th) store emits *no* statement — the suite stays empty and the tuple
target is deferred into the assignment chain instead. -/
theorem unpack_store_defers_when_source_still_referenced :
    ((UNPACK_SEQUENCE 2 chainedUnpackState).bind
        (runStores 2 [.pyname "a", .pyname "b"])).map DecState.suite = some [] ∧
    ((UNPACK_SEQUENCE 2 chainedUnpackState).bind
        (runStores 2 [.pyname "a", .pyname "b"])).map DecState.chain =
      some [.tuple (.cons (.pyname "a") (.cons (.pyname "b") .nil))] := by
  exact ⟨rfl, rfl⟩

/-- Witness for `unpack_sequence_emits_single_assignment`: the plain
`a, b = u` with `u` referenced once. -/
theorem unpack_sequence_emits_single_assignment_witness :
    ∃ st1, UNPACK_SEQUENCE 2 singleUnpackState = some st1 ∧
      st1.stack.vals = List.replicate 2 singleUnpackState.nextId ++ [] ∧
      heapGet st1.heap singleUnpackState.nextId = some (.unpack ⟨0, 2, none, []⟩) ∧
      (∀ k, k < 2 → ∃ stk, runStores 2 ([PyExpr.pyname "a", PyExpr.pyname "b"].take k) st1 = some stk ∧
        stk.suite = singleUnpackState.suite) ∧
      (∃ stN, runStores 2 [PyExpr.pyname "a", PyExpr.pyname "b"] st1 = some stN ∧
        stN.suite = singleUnpackState.suite ++
          [.assign [.tuple (ExprList.ofList [PyExpr.pyname "a", PyExpr.pyname "b"]), .pyname "u"]] ∧
        stN.chain = [] ∧ stN.stack.vals = []) := by
  refine unpack_sequence_emits_single_assignment singleUnpackState 0 [] (.pyname "u")
    [PyExpr.pyname "a", PyExpr.pyname "b"] 2 rfl (by simp) ?_ rfl rfl (by decide) rfl rfl
    (by decide)
  constructor
  · simp [singleUnpackState]
  · intro o
    by_cases ho : o = 0
    · subst ho; rfl
    · show getCount [(0, (1 : Int))] o = ((List.count o [0] : Nat) : Int)
      unfold getCount
      rw [List.find?_cons]
      have hdec : decide ((((0 : Nat), (1 : Int)) : Nat × Int).1 = o) = false := by
        simp only [decide_eq_false_iff_not]
        exact fun h => ho h.symm
      simp only [hdec]
      have hcount : List.count o [0] = 0 := by
        rw [List.count_eq_zero]
        simp only [List.mem_singleton]
        exact ho
      rw [hcount]
      rfl

/-- Witness for `rot_two_pushes_unpack_pair`: the state for
`x, y = z, t`, with `t` on top of `z`; the pushed accumulator's source is
the tuple `(z, t)`. -/
theorem rot_two_pushes_unpack_pair_witness :
    ∃ st', ROT_TWO rotTwoState = some st' ∧
      st'.stack.vals = (rotTwoState.nextId + 1) :: (rotTwoState.nextId + 1) :: [] ∧
      heapGet st'.heap (rotTwoState.nextId + 1) =
        some (.unpack ⟨rotTwoState.nextId, 2, none, []⟩) ∧
      heapGet st'.heap rotTwoState.nextId =
        some (.expr (.tuple (.cons (.pyname "z") (.cons (.pyname "t") .nil)))) ∧
      (∀ stS, ROT_TWO_shadowed rotTwoState = some stS →
        st'.stack.vals ≠ stS.stack.vals) :=
  rot_two_pushes_unpack_pair rotTwoState 1 0 [] (.pyname "t") (.pyname "z")
    (by rfl) (by rfl) (by rfl) (by decide)

end Unpyc
